import Mathlib

/-!
Verification of the Multicall3 Go example (examples/go/main.go).

The development shallowly embeds the example program: ABI encoding of the
aggregate((address,bytes)[]) call per the Solidity ABI rules followed by the
go-ethereum codec, the decoding of the aggregate output and of the three
per-call return shapes (string, uint8, uint256), the big.Float based balance
formatting (SetInt, Quo, Text with verb f and 18 digits), and the control
flow of main itself, with log.Fatalf modelled as immediate process exit that
skips deferred calls, and out-of-range slice indexing modelled as a panic
that runs deferred calls while unwinding.

Machine integers are modelled as Nat; byte strings as List Nat with each
entry below 256; addresses as Nat below 2 to the 160.
-/

namespace Multicall3

/-- Big-endian encoding of a natural number into exactly k bytes (low bytes
truncated modulo 256 at each step, matching fixed-width word encoding). -/
def beBytes : Nat → Nat → List Nat
  | 0, _ => []
  | k+1, n => beBytes k (n / 256) ++ [n % 256]

/-- Value of a big-endian byte list. -/

def beVal (l : List Nat) : Nat := l.foldl (fun a b => a * 256 + b) 0

def readSlice (bs : List Nat) (p len : Nat) : Option (List Nat) :=
  if p + len ≤ bs.length then some ((bs.drop p).take len) else none

/-- Read one 32-byte word at position p and return its value. -/

def readWord (bs : List Nat) (p : Nat) : Option Nat :=
  (readSlice bs p 32).map beVal

structure Call where
  target : Nat
  callData : List Nat
deriving DecidableEq, Repr

/-- Number of zero bytes appended to pad a byte string to a multiple of 32,
as the ABI encoding of a dynamic bytes value requires. -/

def padLen (l : Nat) : Nat := (l + 31) / 32 * 32 - l

/-- ABI encoding of a dynamic bytes value: 32-byte length word, the data,
and zero padding up to a multiple of 32. -/

def encBytes (d : List Nat) : List Nat :=
  beBytes 32 d.length ++ d ++ List.replicate (padLen d.length) 0

/-- ABI encoding of one (address, bytes) tuple: the address word, the offset
word (always 64, the head size of the two-field tuple), then the bytes. -/

def encCall (c : Call) : List Nat :=
  beBytes 32 c.target ++ beBytes 32 64 ++ encBytes c.callData

/-- Sum of the encoded sizes of the first i elements of the batch. -/

def sizeBefore (cs : List Call) (i : Nat) : Nat :=
  ((cs.take i).map fun c => (encCall c).length).sum

/-- Element offsets stored in the head of the encoded dynamic array: each is
measured from the end of the length word. -/

def offs (cs : List Call) : List Nat :=
  (List.range cs.length).map fun i => 32 * cs.length + sizeBefore cs i

/-- ABI encoding of the dynamic array of (address, bytes) tuples: length
word, one offset word per element, then the element encodings in order. -/

def encArr (cs : List Call) : List Nat :=
  beBytes 32 cs.length ++ ((offs cs).map (beBytes 32)).flatten
    ++ (cs.map encCall).flatten

/-- Four-byte selector of aggregate((address,bytes)[]). -/

def aggSelector : List Nat := [0x25, 0x2d, 0xba, 0x42]

/-- Full encoded payload of the aggregate call: selector, the offset word of
the single dynamic argument, then the encoded calls array. This models
multicallABI.Pack applied to the calls list. -/

def encodeAggregate (cs : List Call) : List Nat :=
  aggSelector ++ beBytes 32 32 ++ encArr cs

/-- Decode one (address, bytes) tuple at absolute position s: address word,
bytes offset word, then length and data at that offset. -/

def decodeCallAt (bs : List Nat) (s : Nat) : Option Call :=
  (readWord bs s).bind fun t =>
  (readWord bs (s + 32)).bind fun boff =>
  (readWord bs (s + boff)).bind fun blen =>
  (readSlice bs (s + boff + 32) blen).map fun d => ⟨t, d⟩

/-- Decode the dynamic array of (address, bytes) tuples from its first byte:
length word, then each element through its stored offset. -/

def decodeArr (arr : List Nat) : Option (List Call) :=
  (readWord arr 0).bind fun n =>
  (List.range n).mapM fun i =>
    (readWord arr (32 + 32 * i)).bind fun off => decodeCallAt arr (32 + off)

/-- Decode a full aggregate payload: skip the 4-byte selector, read the
argument offset word, and decode the calls array it points at. -/

def decodeAggregate (full : List Nat) : Option (List Call) :=
  (readWord full 4).bind fun o => decodeArr (full.drop (4 + o))

def decodeString (bs : List Nat) : Option (List Nat) :=
  (readWord bs 0).bind fun o =>
  (readWord bs o).bind fun l =>
  readSlice bs (o + 32) l

/-- Decoding of an ABI uint8 return value, as the external codec performs
it for the decimals() call: one 32-byte word, of which the low byte is the
value. Data shorter than a word fails. -/

def decodeUint8 (bs : List Nat) : Option Nat :=
  (readWord bs 0).map fun w => w % 256

/-- Decoding of an ABI uint256 return value, as the external codec performs
it for the balanceOf(address) call: one 32-byte word. -/

def decodeUint256 (bs : List Nat) : Option Nat :=
  readWord bs 0

/-- Decoding of the aggregate output (uint256 blockNumber, bytes[]
returnData) into the AggregateResult shape of the example. -/

def decodeAggOutput (raw : List Nat) : Option (Nat × List (List Nat)) :=
  (readWord raw 0).bind fun bn =>
  (readWord raw 32).bind fun aoff =>
  (readWord (raw.drop aoff) 0).bind fun n =>
  ((List.range n).mapM fun i =>
    (readWord (raw.drop aoff) (32 + 32 * i)).bind fun off =>
    (readWord (raw.drop aoff) (32 + off)).bind fun l =>
    readSlice (raw.drop aoff) (32 + off + 32) l).map fun rd => (bn, rd)

/-- Offsets of the elements of an encoded bytes array. -/

def bytesOffs (rds : List (List Nat)) : List Nat :=
  (List.range rds.length).map fun i =>
    32 * rds.length + (((rds.take i).map fun d => (encBytes d).length).sum)

/-- ABI encoding of the aggregate output shape, used to build concrete raw
responses for executions of the model. -/

def encodeAggOutput (bn : Nat) (rds : List (List Nat)) : List Nat :=
  beBytes 32 bn ++ beBytes 32 64
    ++ (beBytes 32 rds.length ++ ((bytesOffs rds).map (beBytes 32)).flatten
      ++ (rds.map encBytes).flatten)

/-- Fuel-driven bit length helper, structurally recursive so that it
evaluates inside the kernel. -/

def bitlenF : Nat → Nat → Nat
  | _, 0 => 0
  | 0, _+1 => 0
  | f+1, n+1 => bitlenF f ((n + 1) / 2) + 1

/-- Bit length of a natural number, the model of big.Int BitLen. -/

def bitlen (n : Nat) : Nat := bitlenF n n

/-- Unsigned division rounded to nearest, ties to even, the rounding used by
big.Float in its default ToNearestEven mode. -/

def divRNE (n d : Nat) : Nat :=
  let q := n / d
  let r := n % d
  if 2 * r < d then q
  else if d < 2 * r then q + 1
  else if q % 2 = 0 then q else q + 1

/-- Precision that big.Float SetInt assigns to a fresh value: the larger of
64 and the bit length of the integer. -/

def precOf (x : Nat) : Nat := max 64 (bitlen x)

/-- Floor of the base-2 logarithm of the positive rational a over b. -/

def ilog2Q (a b : Nat) : Int :=
  let sa := bitlen a
  let sb := bitlen b
  if b * 2 ^ sa ≤ a * 2 ^ sb then (sa : Int) - sb else (sa : Int) - sb - 1

/-- Quotient of two integers as computed by big.Float Quo on SetInt values
at result precision p with rounding to nearest even. The value is returned
as mantissa and binary exponent, so it equals m times 2 to the e. -/

def bigFloatQuo (p a b : Nat) : Nat × Int :=
  if a = 0 then (0, 0) else
  let e : Int := ilog2Q a b - ((p : Int) - 1)
  let m := if 0 ≤ e then divRNE a (b * 2 ^ e.toNat)
           else divRNE (a * 2 ^ (-e).toNat) b
  (m, e)

/-- Scaled integer behind Text with verb f and 18 digits: the value times 10
to the 18, correctly rounded to an integer, ties to even. -/

def text18N (m : Nat) (e : Int) : Nat :=
  if 0 ≤ e then m * 2 ^ e.toNat * 10 ^ 18
  else divRNE (m * 10 ^ 18) (2 ^ (-e).toNat)

/-- Decimal digit character. -/

def decDigitChar (d : Nat) : Char := Char.ofNat (48 + d)

/-- Decimal digits of n, least significant first, with fuel. -/

def digRev : Nat → Nat → List Char
  | _, 0 => []
  | 0, _+1 => []
  | f+1, n+1 => decDigitChar ((n + 1) % 10) :: digRev f ((n + 1) / 10)

/-- Decimal string of a natural number, the model of big.Int String and of
the integer part printed by fmt. -/

def natDecStr (n : Nat) : String :=
  if n = 0 then "0" else String.mk (digRev n n).reverse

/-- Left padding with zero digits up to width k. -/

def padLeftZeros (k : Nat) (s : String) : String :=
  String.mk (List.replicate (k - s.length) '0' ++ s.data)

/-- Rendering of a nonnegative big.Float value m times 2 to the e through
Text with verb f and 18 fractional digits. -/

def text18 (m : Nat) (e : Int) : String :=
  natDecStr (text18N m e / 10 ^ 18) ++ "."
    ++ padLeftZeros 18 (natDecStr (text18N m e % 10 ^ 18))

/-- The full balance formatting step of the example: SetInt on the balance
and on 10 to the decimals, Quo at the combined precision, then Text with
verb f and 18 digits. -/

def formatBalance (bal dec : Nat) : String :=
  text18 (bigFloatQuo (max (precOf bal) (precOf (10 ^ dec))) bal (10 ^ dec)).1
    (bigFloatQuo (max (precOf bal) (precOf (10 ^ dec))) bal (10 ^ dec)).2

/-- Exact scaled value of bal over 10 to the dec times 10 to the 18. -/

def exact18N (bal dec : Nat) : Nat :=
  if dec ≤ 18 then bal * 10 ^ (18 - dec) else divRNE bal (10 ^ (dec - 18))

/-- Exact 18-digit rendering of bal over 10 to the dec, for comparison: the
string a correctly computed arbitrary-precision formatter would print. -/

def exactText18 (bal dec : Nat) : String :=
  natDecStr (exact18N bal dec / 10 ^ 18) ++ "."
    ++ padLeftZeros 18 (natDecStr (exact18N bal dec % 10 ^ 18))

/-- Bytes rendered as a Go string, used when printing the decoded symbol. -/

def strOfBytes (bs : List Nat) : String := String.mk (bs.map Char.ofNat)

/-- Multicall3 aggregation contract address constant of the example. -/

def multicall3Address : Nat := 0xcA11bde05977b3631167028862bE2a173976CA11

/-- DAI token contract address constant of the example. -/

def daiAddress : Nat := 0x6B175474E89094C44Da98b954EedeAC495271d0F

/-- Test address constant of the example. -/

def vitalikAddress : Nat := 0xd8dA6BF26964aF9D7eEd9e03E53415D37aA96045

/-- Encoded call data of symbol(): its four selector bytes. -/

def symbolCallData : List Nat := [0x95, 0xd8, 0x9b, 0x41]

/-- Encoded call data of decimals(): its four selector bytes. -/

def decimalsCallData : List Nat := [0x31, 0x3c, 0xe5, 0x67]

/-- Encoded call data of balanceOf(vitalikAddress): the selector bytes of
balanceOf(address) followed by the address left padded to one word. -/

def balanceOfCallData : List Nat :=
  [0x70, 0xa0, 0x82, 0x31] ++ beBytes 32 vitalikAddress

/-- The batch the example builds, in source order: symbol, decimals,
balanceOf, all targeting the DAI contract. -/

def daiCalls : List Call :=
  [⟨daiAddress, symbolCallData⟩,
   ⟨daiAddress, decimalsCallData⟩,
   ⟨daiAddress, balanceOfCallData⟩]

/-- An outbound read-only call message: target contract, payload, and the
optional value transfer, which the example never sets. -/

structure CallMsg where
  toAddr : Nat
  data : List Nat
  value : Option Nat
deriving DecidableEq, Repr

/-- The one message the example submits: the aggregate payload addressed to
the Multicall3 contract with no value transfer. -/

def multicallMsg : CallMsg :=
  ⟨multicall3Address, encodeAggregate daiCalls, none⟩

/-- External inputs of one program run: the configured RPC URL as returned
by the environment lookup, the result of opening the connection, and the
transport response to an outbound call. -/

structure World where
  rpcUrl : String
  dial : Except String Unit
  call : CallMsg → Except String (List Nat)

/-- How the process ends: normal completion, log.Fatalf (non-zero exit with
a message, deferred calls skipped), or a runtime panic (non-zero exit,
deferred calls run while unwinding). -/

inductive Outcome where
  | success : Outcome
  | fatal : String → Outcome
  | panic : Outcome
deriving DecidableEq, Repr

/-- Observable trace of one run: the outcome, the stdout lines printed, and
the resource and transport events. The submitted field records the call
message and the block argument, nil in the example, passed to the
transport. -/

structure RunResult where
  outcome : Outcome
  printed : List String
  dialAttempted : Bool
  connOpened : Bool
  connClosed : Bool
  submitted : Option (CallMsg × Option Nat)
deriving DecidableEq, Repr

/-- The control flow of main, step by step: environment check, dial with a
deferred Close, fixed ABI parsing and packing (deterministic on the
constant inputs), one CallContract with a nil block argument, aggregate
unpack, then the three indexed per-call unpacks. log.Fatalf exits without
running the deferred Close, so connClosed is false on every fatal path; a
panic from out-of-range indexing runs the deferred Close while unwinding. -/

def mainRun (w : World) : RunResult :=
  if w.rpcUrl = "" then
    ⟨.fatal "MAINNET_RPC_URL environment variable is required",
      [], false, false, false, none⟩
  else
    match w.dial with
    | .error e =>
        ⟨.fatal ("Failed to connect to the Ethereum client: " ++ e),
          [], true, false, false, none⟩
    | .ok _ =>
        match w.call multicallMsg with
        | .error e =>
            ⟨.fatal ("Failed to execute multicall: " ++ e),
              [], true, true, false, some (multicallMsg, none)⟩
        | .ok raw =>
            match decodeAggOutput raw with
            | none =>
                ⟨.fatal "Failed to unpack multicall result",
                  [], true, true, false, some (multicallMsg, none)⟩
            | some (bn, rd) =>
                match rd.get? 0 with
                | none => ⟨.panic, [], true, true, true,
                    some (multicallMsg, none)⟩
                | some r0 =>
                    match decodeString r0 with
                    | none =>
                        ⟨.fatal "Failed to unpack symbol",
                          [], true, true, false, some (multicallMsg, none)⟩
                    | some sym =>
                        match rd.get? 1 with
                        | none => ⟨.panic, [], true, true, true,
                            some (multicallMsg, none)⟩
                        | some r1 =>
                            match decodeUint8 r1 with
                            | none =>
                                ⟨.fatal "Failed to unpack decimals",
                                  [], true, true, false,
                                  some (multicallMsg, none)⟩
                            | some dec =>
                                match rd.get? 2 with
                                | none => ⟨.panic, [], true, true, true,
                                    some (multicallMsg, none)⟩
                                | some r2 =>
                                    match decodeUint256 r2 with
                                    | none =>
                                        ⟨.fatal "Failed to unpack balance",
                                          [], true, true, false,
                                          some (multicallMsg, none)⟩
                                    | some bal =>
                                        ⟨.success,
                                          ["Block Number: " ++ natDecStr bn,
                                           "DAI Symbol: " ++ strOfBytes sym,
                                           "DAI Decimals: " ++ natDecStr dec,
                                           "Vitalik's " ++ strOfBytes sym
                                             ++ " balance: "
                                             ++ formatBalance bal dec],
                                          true, true, true,
                                          some (multicallMsg, none)⟩

def runBatch {α : Type} (exec : Call → List Nat)
    (reqs : List (Call × (List Nat → Option α))) : List (Option α) :=
  reqs.map fun r => r.2 (exec r.1)

/-- World with the URL unset, for executions that stop at the
configuration check. -/

def noUrlWorld : World := ⟨"", Except.ok (), fun _ => Except.error "x"⟩

/-- World whose transport rejects the aggregated call. -/

def connectOkCallFailWorld : World :=
  ⟨"http://localhost:8545", Except.ok (), fun _ => Except.error "boom"⟩

/-- World where dialing succeeds and the remote call fails, exercising the
fatal path after the connection was opened. -/

def transportFailWorld : World :=
  ⟨"http://localhost:8545", Except.ok (), fun _ => Except.error "transport down"⟩

/-- World whose response decodes to a single-entry return data list whose
entry cannot be decoded as a string. -/

def shortResponseWorld : World :=
  ⟨"u", Except.ok (), fun _ => Except.ok (encodeAggOutput 7 [[]])⟩

/-- World whose response decodes to an empty return data list. -/

def emptyResponseWorld : World :=
  ⟨"u", Except.ok (), fun _ => Except.ok (encodeAggOutput 7 [])⟩

/-- Return data of symbol(): the ABI encoding of the string DAI. -/

def symbolReturn : List Nat := beBytes 32 32 ++ encBytes [0x44, 0x41, 0x49]

/-- Return data of decimals(): one word holding 18. -/

def decimalsReturn : List Nat := beBytes 32 18

/-- Return data of balanceOf(): one word holding the sample balance. -/

def balanceReturn : List Nat := beBytes 32 1234567890123456789

/-- World with a well-formed response for all three calls. -/

def okWorld : World :=
  ⟨"http://localhost:8545", Except.ok (),
    fun _ => Except.ok
      (encodeAggOutput 123 [symbolReturn, decimalsReturn, balanceReturn])⟩

theorem beBytes_length (k n : Nat) : (beBytes k n).length = k := by
  induction k generalizing n with
  | zero => rfl
  | succ k ih => simp [beBytes, ih]

theorem beVal_append_single (l : List Nat) (b : Nat) :
    beVal (l ++ [b]) = 256 * beVal l + b := by
  simp [beVal, List.foldl_append, Nat.mul_comm]

theorem beVal_beBytes (k n : Nat) (h : n < 256 ^ k) :
    beVal (beBytes k n) = n := by
  induction k generalizing n with
  | zero =>
      interval_cases n
      rfl
  | succ k ih =>
      have hdiv : n / 256 < 256 ^ k := by
        apply Nat.div_lt_of_lt_mul
        rw [pow_succ, Nat.mul_comm] at h
        exact h
      rw [beBytes, beVal_append_single, ih _ hdiv]
      omega

/-- Read len bytes at position p, failing when out of range. This models the
bounds-checked slicing performed by the go-ethereum ABI decoder. -/

theorem readSlice_shift (a b : List Nat) (p n : Nat) :
    readSlice (a ++ b) (a.length + p) n = readSlice b p n := by
  unfold readSlice
  rw [List.drop_append]
  simp only [List.length_append]
  have hc : a.length + p + n ≤ a.length + b.length ↔ p + n ≤ b.length := by
    omega
  simp [hc]

theorem readSlice_front (a b : List Nat) (p n : Nat) (h : p + n ≤ a.length) :
    readSlice (a ++ b) p n = readSlice a p n := by
  have hp : p ≤ a.length := by omega
  have hL : p + n ≤ (a ++ b).length := by
    simp only [List.length_append]
    omega
  have hd : n ≤ (a.drop p).length := by
    simp only [List.length_drop]
    omega
  unfold readSlice
  rw [if_pos hL, if_pos h, List.drop_append_eq_append_drop,
    Nat.sub_eq_zero_of_le hp, List.drop_zero,
    List.take_append_eq_append_take, Nat.sub_eq_zero_of_le hd,
    List.take_zero, List.append_nil]

theorem readSlice_here (a b : List Nat) :
    readSlice (a ++ b) 0 a.length = some a := by
  unfold readSlice
  simp [List.take_left]

theorem readSlice_at (pre mid suf : List Nat) :
    readSlice (pre ++ mid ++ suf) pre.length mid.length = some mid := by
  rw [List.append_assoc]
  have := readSlice_shift pre (mid ++ suf) 0 mid.length
  simpa [readSlice_here] using this

theorem readWord_shift (a b : List Nat) (p : Nat) :
    readWord (a ++ b) (a.length + p) = readWord b p := by
  unfold readWord
  rw [readSlice_shift]

theorem readWord_at (pre mid suf : List Nat) (h : mid.length = 32) :
    readWord (pre ++ mid ++ suf) pre.length = some (beVal mid) := by
  unfold readWord
  have := readSlice_at pre mid suf
  rw [h] at this
  rw [this]
  rfl

theorem readWord_be (pre suf : List Nat) (n : Nat) (h : n < 256 ^ 32) :
    readWord (pre ++ beBytes 32 n ++ suf) pre.length = some n := by
  rw [readWord_at _ _ _ (beBytes_length 32 n), beVal_beBytes 32 n h]

/-- A single call of the batch: target contract address and already encoded
call data, mirroring the Call struct of the example. -/

theorem readWord_skip (A R : List Nat) (hA : A.length = 32) (p r : Nat)
    (hp : p = 32 + r) : readWord (A ++ R) p = readWord R r := by
  subst hp
  have := readWord_shift A R r
  rwa [hA] at this

theorem readSlice_skip (A R : List Nat) (hA : A.length = 32) (p r : Nat)
    (l : Nat) (hp : p = 32 + r) : readSlice (A ++ R) p l = readSlice R r l := by
  subst hp
  have := readSlice_shift A R r l
  rwa [hA] at this

theorem readWord_head (n : Nat) (R : List Nat) (h : n < 256 ^ 32) :
    readWord (beBytes 32 n ++ R) 0 = some n := by
  simpa using readWord_be [] R n h

/-- Decoding one encoded (address, bytes) tuple at its first byte recovers
the tuple, whatever follows it. -/

theorem decodeCallAt_encCall (t : Nat) (d suf : List Nat)
    (ht : t < 256 ^ 32) (hl : d.length < 256 ^ 32) :
    decodeCallAt (encCall ⟨t, d⟩ ++ suf) 0 = some ⟨t, d⟩ := by
  have h64 : (64 : Nat) < 256 ^ 32 := by norm_num
  have e1 : encCall ⟨t, d⟩ ++ suf
      = beBytes 32 t ++ (beBytes 32 64 ++ (beBytes 32 d.length
          ++ (d ++ (List.replicate (padLen d.length) 0 ++ suf)))) := by
    simp [encCall, encBytes, List.append_assoc]
  have r0 : readWord (encCall ⟨t, d⟩ ++ suf) 0 = some t := by
    rw [e1]
    exact readWord_head t _ ht
  have r1 : readWord (encCall ⟨t, d⟩ ++ suf) (0 + 32) = some 64 := by
    rw [e1]
    rw [readWord_skip _ _ (beBytes_length 32 t) (0 + 32) 0 (by omega)]
    exact readWord_head 64 _ h64
  have r2 : readWord (encCall ⟨t, d⟩ ++ suf) (0 + 64) = some d.length := by
    rw [e1]
    rw [readWord_skip _ _ (beBytes_length 32 t) (0 + 64) 32 (by omega)]
    rw [readWord_skip _ _ (beBytes_length 32 64) 32 0 (by omega)]
    exact readWord_head d.length _ hl
  have r3 : readSlice (encCall ⟨t, d⟩ ++ suf) (0 + 64 + 32) d.length
      = some d := by
    rw [e1]
    rw [readSlice_skip _ _ (beBytes_length 32 t) (0 + 64 + 32) 64 _ (by omega)]
    rw [readSlice_skip _ _ (beBytes_length 32 64) 64 32 _ (by omega)]
    rw [readSlice_skip _ _ (beBytes_length 32 d.length) 32 0 _ (by omega)]
    have := readSlice_here d (List.replicate (padLen d.length) 0 ++ suf)
    simpa [List.append_assoc] using this
  unfold decodeCallAt
  rw [r0, Option.some_bind, r1, Option.some_bind, r2, Option.some_bind, r3]
  rfl

theorem decodeCallAt_shift (pre X : List Nat) :
    decodeCallAt (pre ++ X) pre.length = decodeCallAt X 0 := by
  have e2 : ∀ r, readWord (pre ++ X) (pre.length + r) = readWord X r :=
    readWord_shift pre X
  have e3 : ∀ r l, readSlice (pre ++ X) (pre.length + r) l = readSlice X r l :=
    readSlice_shift pre X
  have e0 : readWord (pre ++ X) pre.length = readWord X 0 := by
    simpa using e2 0
  unfold decodeCallAt
  simp only [Nat.add_assoc, e0, e2, e3, Nat.zero_add]

/-- Decoding at the offset of the i-th encoded element of the batch recovers
the i-th call. -/

theorem decodeCallAt_flatten (cs : List Call) (pre : List Nat) (i : Nat)
    (h : i < cs.length)
    (hwf : ∀ c ∈ cs, c.target < 256 ^ 32 ∧ c.callData.length < 256 ^ 32) :
    decodeCallAt (pre ++ (cs.map encCall).flatten)
      (pre.length + sizeBefore cs i) = some (cs.get ⟨i, h⟩) := by
  induction cs generalizing pre i with
  | nil => simp at h
  | cons c cs ih =>
      cases i with
      | zero =>
          have hs : sizeBefore (c :: cs) 0 = 0 := by simp [sizeBefore]
          have hc := hwf c (by simp)
          obtain ⟨t, d⟩ := c
          rw [hs, Nat.add_zero]
          have e : (((⟨t, d⟩ : Call) :: cs).map encCall).flatten
              = encCall ⟨t, d⟩ ++ (cs.map encCall).flatten := by simp
          rw [e, decodeCallAt_shift]
          exact decodeCallAt_encCall t d _ hc.1 hc.2
      | succ i =>
          have hs : sizeBefore (c :: cs) (i + 1)
              = (encCall c).length + sizeBefore cs i := by
            simp [sizeBefore, List.take_succ_cons]
          have e : pre ++ ((c :: cs).map encCall).flatten
              = (pre ++ encCall c) ++ (cs.map encCall).flatten := by
            simp [List.append_assoc]
          have hp : pre.length + sizeBefore (c :: cs) (i + 1)
              = (pre ++ encCall c).length + sizeBefore cs i := by
            simp [hs, List.length_append]
            omega
          rw [e, hp]
          have h' : i < cs.length := by simpa using h
          have := ih (pre ++ encCall c) i h'
            (fun c hc => hwf c (List.mem_cons_of_mem _ hc))
          simpa using this

theorem flatten_words_length (l : List Nat) :
    ((l.map (beBytes 32)).flatten).length = 32 * l.length := by
  induction l with
  | nil => simp
  | cons o l ih => simp [ih, beBytes_length]; ring

/-- Reading the i-th 32-byte word of a flattened word list. -/

theorem readWord_words (l : List Nat) (R : List Nat) (i : Nat)
    (h : i < l.length) (hwf : ∀ o ∈ l, o < 256 ^ 32) :
    readWord ((l.map (beBytes 32)).flatten ++ R) (32 * i)
      = some (l.get ⟨i, h⟩) := by
  induction l generalizing R i with
  | nil => simp at h
  | cons o l ih =>
      cases i with
      | zero =>
          have e : (((o :: l).map (beBytes 32)).flatten ++ R)
              = beBytes 32 o ++ ((l.map (beBytes 32)).flatten ++ R) := by
            simp [List.append_assoc]
          rw [Nat.mul_zero, e]
          exact readWord_head o _ (hwf o (by simp))
      | succ i =>
          have e : (((o :: l).map (beBytes 32)).flatten ++ R)
              = beBytes 32 o ++ ((l.map (beBytes 32)).flatten ++ R) := by
            simp [List.append_assoc]
          rw [e, readWord_skip _ _ (beBytes_length 32 o) (32 * (i + 1))
            (32 * i) (by ring)]
          have h' : i < l.length := by simpa using h
          have := ih R i h' (fun x hx => hwf x (List.mem_cons_of_mem _ hx))
          simpa using this

theorem mapM_single (f : Nat → Option α) (a : Nat) :
    List.mapM f [a] = (f a).bind fun b => some [b] := by
  cases hf : f a <;> simp [List.mapM, List.mapM.loop, hf]

theorem mapM_range_some (n : Nat) (f : Nat → Option α) (g : Nat → α)
    (h : ∀ i, i < n → f i = some (g i)) :
    (List.range n).mapM f = some ((List.range n).map g) := by
  induction n with
  | zero => rfl
  | succ n ih =>
      rw [List.range_succ, List.mapM_append, List.map_append]
      rw [ih (fun i hi => h i (Nat.lt_succ_of_lt hi)), mapM_single,
        h n (Nat.lt_succ_self n)]
      rfl

theorem range_map_getD (cs : List Call) (d : Call) :
    (List.range cs.length).map (fun i => cs.getD i d) = cs := by
  apply List.ext_getElem
  · simp
  · intro i h1 h2
    simp [List.getD_eq_getElem?_getD, List.getElem?_eq_getElem h2]

/-- Total size of the tails of the encoded batch. -/

theorem sizeBefore_le (cs : List Call) (i : Nat) :
    sizeBefore cs i ≤ ((cs.map encCall).flatten).length := by
  rw [List.length_flatten]
  unfold sizeBefore
  have : (cs.map fun c => (encCall c).length)
      = ((cs.take i).map fun c => (encCall c).length)
        ++ ((cs.drop i).map fun c => (encCall c).length) := by
    rw [← List.map_append, List.take_append_drop]
  rw [show (List.map List.length (cs.map encCall))
      = cs.map fun c => (encCall c).length by simp, this, List.sum_append]
  omega

theorem offsFlat_length (cs : List Call) :
    (((offs cs).map (beBytes 32)).flatten).length = 32 * cs.length := by
  rw [flatten_words_length]
  congr 1
  simp [offs]

theorem encArr_length (cs : List Call) :
    (encArr cs).length
      = 32 + 32 * cs.length + ((cs.map encCall).flatten).length := by
  unfold encArr
  rw [List.length_append, List.length_append, beBytes_length, offsFlat_length]

/-- Round trip of the encoded calls array: decoding recovers the batch, in
order. -/

theorem decodeArr_encArr (cs : List Call)
    (hlen : (encArr cs).length < 256 ^ 32)
    (hwf : ∀ c ∈ cs, c.target < 256 ^ 32 ∧ c.callData.length < 256 ^ 32) :
    decodeArr (encArr cs) = some cs := by
  have hLa := encArr_length cs
  have hn : cs.length < 256 ^ 32 := by omega
  have e : encArr cs = beBytes 32 cs.length
      ++ (((offs cs).map (beBytes 32)).flatten ++ (cs.map encCall).flatten) := by
    simp [encArr, List.append_assoc]
  have r0 : readWord (encArr cs) 0 = some cs.length := by
    rw [e]
    exact readWord_head cs.length _ hn
  have hoffs : ∀ o ∈ offs cs, o < 256 ^ 32 := by
    intro o ho
    simp only [offs, List.mem_map, List.mem_range] at ho
    obtain ⟨i, hi, rfl⟩ := ho
    have := sizeBefore_le cs i
    omega
  have hstep : ∀ i, i < cs.length →
      ((readWord (encArr cs) (32 + 32 * i)).bind fun off =>
        decodeCallAt (encArr cs) (32 + off))
      = some (cs.getD i ⟨0, []⟩) := by
    intro i hi
    have hoi : i < (offs cs).length := by simp [offs]; omega
    have ro : readWord (encArr cs) (32 + 32 * i)
        = some ((offs cs).get ⟨i, hoi⟩) := by
      rw [e, readWord_skip _ _ (beBytes_length 32 cs.length) (32 + 32 * i)
        (32 * i) rfl]
      exact readWord_words (offs cs) _ i hoi hoffs
    have hov : (offs cs).get ⟨i, hoi⟩ = 32 * cs.length + sizeBefore cs i := by
      simp [offs]
    rw [ro, Option.some_bind, hov]
    have e2 : encArr cs = (beBytes 32 cs.length
        ++ ((offs cs).map (beBytes 32)).flatten) ++ (cs.map encCall).flatten := by
      simp [encArr, List.append_assoc]
    have hp : 32 + (32 * cs.length + sizeBefore cs i)
        = (beBytes 32 cs.length
            ++ ((offs cs).map (beBytes 32)).flatten).length
          + sizeBefore cs i := by
      rw [List.length_append, beBytes_length, offsFlat_length]
      omega
    rw [e2, hp, decodeCallAt_flatten cs _ i hi hwf]
    simp [List.getD_eq_getElem?_getD, List.getElem?_eq_getElem hi]
  unfold decodeArr
  rw [r0, Option.some_bind,
    mapM_range_some cs.length _ (fun i => cs.getD i ⟨0, []⟩) hstep,
    range_map_getD]

/-- Round trip of the full aggregate payload: the encoded batch decodes back
to the submitted call list, preserving order. -/

theorem decodeAggregate_encodeAggregate (cs : List Call)
    (hlen : (encArr cs).length < 256 ^ 32)
    (hwf : ∀ c ∈ cs, c.target < 256 ^ 32 ∧ c.callData.length < 256 ^ 32) :
    decodeAggregate (encodeAggregate cs) = some cs := by
  have h32 : (32 : Nat) < 256 ^ 32 := by norm_num
  have e : encodeAggregate cs
      = aggSelector ++ beBytes 32 32 ++ encArr cs := rfl
  have r0 : readWord (encodeAggregate cs) 4 = some 32 := by
    rw [e]
    have := readWord_be aggSelector (encArr cs) 32 h32
    simpa using this
  have hd : (encodeAggregate cs).drop (4 + 32) = encArr cs := by
    rw [e]
    have hlen36 : (aggSelector ++ beBytes 32 32).length = 4 + 32 := by
      simp [beBytes_length, aggSelector]
    rw [← hlen36, List.drop_left]
  unfold decodeAggregate
  rw [r0, Option.some_bind, hd]
  exact decodeArr_encArr cs hlen hwf

/-- Decoding of an ABI string return value, as the external codec performs
it for the symbol() call: offset word, length word at the offset, then the
raw bytes. Empty or truncated data fails. -/

theorem bitlenF_congr (n : Nat) : ∀ f g : Nat, n ≤ f → n ≤ g →
    bitlenF f n = bitlenF g n := by
  induction n using Nat.strong_induction_on with
  | _ n ih =>
      intro f g hf hg
      match n, f, g with
      | 0, f, g => cases f <;> cases g <;> rfl
      | m + 1, f + 1, g + 1 =>
          show bitlenF f ((m + 1) / 2) + 1 = bitlenF g ((m + 1) / 2) + 1
          have h1 : (m + 1) / 2 < m + 1 := by omega
          have h2 : (m + 1) / 2 ≤ f := by omega
          have h3 : (m + 1) / 2 ≤ g := by omega
          rw [ih _ h1 f g h2 h3]

theorem bitlen_div2 (n : Nat) (h : 0 < n) : bitlen n = bitlen (n / 2) + 1 := by
  obtain ⟨m, rfl⟩ : ∃ m, n = m + 1 := ⟨n - 1, by omega⟩
  show bitlenF m ((m + 1) / 2) + 1 = bitlenF ((m + 1) / 2) ((m + 1) / 2) + 1
  rw [bitlenF_congr ((m + 1) / 2) m ((m + 1) / 2) (by omega) (by omega)]

theorem bitlen_pos (n : Nat) (h : 0 < n) : 0 < bitlen n := by
  rw [bitlen_div2 n h]
  omega

theorem bitlen_lower (n : Nat) (h : 0 < n) : 2 ^ (bitlen n - 1) ≤ n := by
  induction n using Nat.strong_induction_on with
  | _ n ih =>
      rw [bitlen_div2 n h, Nat.add_sub_cancel]
      rcases Nat.eq_zero_or_pos (n / 2) with h0 | h0
      · rw [h0]
        show 2 ^ bitlen 0 ≤ n
        exact h
      · have hb := bitlen_pos (n / 2) h0
        have hrec := ih (n / 2) (by omega) h0
        have he : 2 ^ bitlen (n / 2) = 2 * 2 ^ (bitlen (n / 2) - 1) := by
          rw [← pow_succ']
          congr 1
          omega
        omega

theorem divRNE_one (n : Nat) : divRNE n 1 = n := by
  simp [divRNE, Nat.mod_one, Nat.div_one]

theorem divRNE_mul_cancel (x d : Nat) (h : 0 < d) : divRNE (x * d) d = x := by
  simp [divRNE, Nat.mul_div_cancel _ h, Nat.mul_mod_left, h]

theorem bitlen_one : bitlen 1 = 1 := rfl

/-- With decimals zero the quotient step is exact: the big.Float division by
one returns the balance itself, as mantissa times two to the exponent with
the mantissa padded to the working precision. -/

theorem bigFloatQuo_one (bal : Nat) (hb : 0 < bal) :
    bigFloatQuo (max (precOf bal) (precOf 1)) bal 1
      = if 64 ≤ bitlen bal then (bal, 0)
        else (bal * 2 ^ (64 - bitlen bal), (bitlen bal : Int) - 64) := by
  have hp1 : precOf 1 = 64 := by decide
  have hlow := bitlen_lower bal hb
  have hpos := bitlen_pos bal hb
  have hcond : 1 * 2 ^ bitlen bal ≤ bal * 2 ^ bitlen 1 := by
    have he : 2 ^ bitlen bal = 2 ^ (bitlen bal - 1) * 2 := by
      rw [← pow_succ]
      congr 1
      omega
    rw [bitlen_one, Nat.one_mul, pow_one, he]
    omega
  have hilog : ilog2Q bal 1 = (bitlen bal : Int) - 1 := by
    simp only [ilog2Q]
    rw [if_pos hcond, bitlen_one]
    norm_num
  have hane : ¬ bal = 0 := by omega
  rcases le_or_lt 64 (bitlen bal) with hc | hc
  · have hpmax : max (precOf bal) (precOf 1) = bitlen bal := by
      rw [hp1]
      unfold precOf
      omega
    simp only [bigFloatQuo, hane, if_false, hpmax, hilog]
    have hz : (bitlen bal : Int) - 1 - (((bitlen bal : Nat) : Int) - 1)
        = 0 := by ring
    rw [hz]
    simp [divRNE_one, hc]
  · have hpmax : max (precOf bal) (precOf 1) = 64 := by
      rw [hp1]
      unfold precOf
      omega
    simp only [bigFloatQuo, hane, if_false, hpmax, hilog]
    have hz : (bitlen bal : Int) - 1 - (((64 : Nat) : Int) - 1)
        = (bitlen bal : Int) - 64 := by push_cast; ring
    rw [hz]
    have hneg : ¬ (0 : Int) ≤ (bitlen bal : Int) - 64 := by omega
    have htn : (-((bitlen bal : Int) - 64)).toNat = 64 - bitlen bal := by
      omega
    simp [hneg, htn, divRNE_one, Nat.not_le.mpr hc]

/-- With decimals zero the printed string is the exact integer with a
trailing point and 18 zero digits. -/

theorem formatBalance_zero_decimals (bal : Nat) :
    formatBalance bal 0 = natDecStr bal ++ "." ++ String.mk (List.replicate 18 '0') := by
  rcases Nat.eq_zero_or_pos bal with rfl | hb
  · decide
  · have hq := bigFloatQuo_one bal hb
    have hpad : padLeftZeros 18 (natDecStr 0) = String.mk (List.replicate 18 '0') := by
      decide
    unfold formatBalance
    rw [pow_zero, hq]
    rcases le_or_lt 64 (bitlen bal) with hc | hc
    · simp only [if_pos hc, text18, text18N]
      have h0 : (0 : Int) ≤ 0 := le_refl 0
      rw [if_pos h0]
      have hN : bal * 2 ^ (0 : Int).toNat * 10 ^ 18 = bal * 10 ^ 18 := by
        norm_num
      rw [hN, Nat.mul_div_cancel _ (by positivity), Nat.mul_mod_left, hpad]
    · simp only [if_neg (Nat.not_le.mpr hc), text18, text18N]
      have hneg : ¬ (0 : Int) ≤ (bitlen bal : Int) - 64 := by omega
      rw [if_neg hneg]
      have htn : (-((bitlen bal : Int) - 64)).toNat = 64 - bitlen bal := by
        omega
      rw [htn]
      have hN : divRNE (bal * 2 ^ (64 - bitlen bal) * 10 ^ 18)
          (2 ^ (64 - bitlen bal)) = bal * 10 ^ 18 := by
        have hcomm : bal * 2 ^ (64 - bitlen bal) * 10 ^ 18
            = bal * 10 ^ 18 * 2 ^ (64 - bitlen bal) := by ring
        rw [hcomm, divRNE_mul_cancel _ _ (by positivity)]
      rw [hN, Nat.mul_div_cancel _ (by positivity), Nat.mul_mod_left, hpad]

theorem digRev_length (f : Nat) : ∀ n k, n ≤ f → n < 10 ^ k →
    (digRev f n).length ≤ k := by
  induction f with
  | zero =>
      intro n k h1 h2
      cases n <;> simp [digRev]
  | succ f ih =>
      intro n k h1 h2
      cases n with
      | zero => simp [digRev]
      | succ m =>
          cases k with
          | zero => omega
          | succ j =>
              show (decDigitChar ((m + 1) % 10) :: digRev f ((m + 1) / 10)).length
                ≤ j + 1
              rw [List.length_cons]
              have hd1 : (m + 1) / 10 ≤ f := by omega
              have hd2 : (m + 1) / 10 < 10 ^ j := by
                apply Nat.div_lt_of_lt_mul
                rw [pow_succ] at h2
                omega
              have := ih ((m + 1) / 10) j hd1 hd2
              omega

theorem digRev_mem_digit (f : Nat) : ∀ n c, c ∈ digRev f n →
    ∃ d, d < 10 ∧ c = decDigitChar d := by
  induction f with
  | zero =>
      intro n c hc
      cases n <;> simp [digRev] at hc
  | succ f ih =>
      intro n c hc
      cases n with
      | zero => simp [digRev] at hc
      | succ m =>
          rcases List.mem_cons.mp hc with h | h
          · exact ⟨(m + 1) % 10, Nat.mod_lt _ (by omega), h⟩
          · exact ih _ c h

theorem decDigitChar_ne_dot (d : Nat) (h : d < 10) : decDigitChar d ≠ '.' := by
  interval_cases d <;> decide

theorem natDecStr_length_le (n k : Nat) (h1 : n < 10 ^ k) (h2 : 0 < k) :
    (natDecStr n).length ≤ k := by
  unfold natDecStr
  split
  · show (1 : Nat) ≤ k
    omega
  · show (digRev n n).reverse.length ≤ k
    rw [List.length_reverse]
    exact digRev_length n n k (le_refl n) h1

theorem natDecStr_no_dot (n : Nat) : ∀ c ∈ (natDecStr n).data, c ≠ '.' := by
  unfold natDecStr
  split
  · intro c hc
    simp at hc
    subst hc
    decide
  · intro c hc
    have hm : c ∈ digRev n n := by
      have : c ∈ (digRev n n).reverse := hc
      simpa using this
    obtain ⟨d, hd, rfl⟩ := digRev_mem_digit n n c hm
    exact decDigitChar_ne_dot d hd

theorem padLeftZeros_length (s : String) (h : s.length ≤ 18) :
    (padLeftZeros 18 s).length = 18 := by
  show (List.replicate (18 - s.length) '0' ++ s.data).length = 18
  rw [List.length_append, List.length_replicate]
  have : s.data.length = s.length := rfl
  omega

theorem padLeftZeros_no_dot (s : String) (h : ∀ c ∈ s.data, c ≠ '.') :
    ∀ c ∈ (padLeftZeros 18 s).data, c ≠ '.' := by
  intro c hc
  have hc2 : c ∈ List.replicate (18 - s.length) '0' ++ s.data := hc
  rcases List.mem_append.mp hc2 with h0 | h0
  · have := List.eq_of_mem_replicate h0
    subst this
    decide
  · exact h c h0

/-- Per-request demultiplexing: each request carries its call and the decode
shape of its result, and the transport is abstracted as a function from a
call to its raw return bytes, which is the documented contract of the
aggregation: returnData at i is the result of calls at i. -/

theorem getD_map {β γ : Type} (g : β → γ) (l : List β) :
    ∀ (i : Nat) (d : β), (l.map g).getD i (g d) = g (l.getD i d) := by
  induction l with
  | nil => intro i d; simp
  | cons b l ih =>
      intro i d
      cases i with
      | zero => simp
      | succ i => simp [ih i d]

/-- Every run either completes or prints nothing: all four output lines are
printed together after the last decode. -/

theorem mainRun_cases (w : World) :
    (mainRun w).outcome = .success ∨ (mainRun w).printed = [] := by
  unfold mainRun
  (repeat' split) <;> simp

/-- Claim C1: the batch preserves input order in the encoded payload, so
decoding the payload returns exactly the submitted ordered call list; the
per-call decodes consume returnData at 0, 1 and 2 under the shapes of the
first, second and third call respectively; and reordering the request list
reorders the demultiplexed output list identically. -/

theorem batch_order_preserved :
    (∀ cs : List Call, (encArr cs).length < 256 ^ 32 →
      (∀ c ∈ cs, c.target < 256 ^ 32 ∧ c.callData.length < 256 ^ 32) →
      decodeAggregate (encodeAggregate cs) = some cs)
    ∧ (∀ (α : Type) (exec : Call → List Nat)
        (reqs : List (Call × (List Nat → Option α))) (idx : List Nat)
        (d : Call × (List Nat → Option α)),
        runBatch exec (idx.map fun i => reqs.getD i d)
          = idx.map fun i => (runBatch exec reqs).getD i (d.2 (exec d.1)))
    ∧ (∀ (w : World) (exec : Call → List Nat) raw bn s d8 bal,
        w.rpcUrl ≠ "" → w.dial = Except.ok () →
        w.call multicallMsg = Except.ok raw →
        decodeAggOutput raw = some (bn, daiCalls.map exec) →
        decodeString (exec ⟨daiAddress, symbolCallData⟩) = some s →
        decodeUint8 (exec ⟨daiAddress, decimalsCallData⟩) = some d8 →
        decodeUint256 (exec ⟨daiAddress, balanceOfCallData⟩) = some bal →
        (mainRun w).outcome = .success ∧
        (mainRun w).printed =
          ["Block Number: " ++ natDecStr bn,
           "DAI Symbol: " ++ strOfBytes s,
           "DAI Decimals: " ++ natDecStr d8,
           "Vitalik's " ++ strOfBytes s ++ " balance: "
             ++ formatBalance bal d8]) := by
  refine ⟨decodeAggregate_encodeAggregate, ?_, ?_⟩
  · intro α exec reqs idx d
    unfold runBatch
    rw [List.map_map]
    apply List.map_congr_left
    intro i _
    simp only [Function.comp_apply]
    rw [getD_map (fun r => r.2 (exec r.1)) reqs i d]
  · intro w exec raw bn s d8 bal hu hd hc hdec hs h8 h256
    have hrd : daiCalls.map exec
        = [exec ⟨daiAddress, symbolCallData⟩,
           exec ⟨daiAddress, decimalsCallData⟩,
           exec ⟨daiAddress, balanceOfCallData⟩] := rfl
    rw [hrd] at hdec
    constructor <;> simp [mainRun, hu, hd, hc, hdec, hs, h8, h256]

set_option maxRecDepth 100000 in
/-- Witness for C1: the round trip evaluated on the concrete batch the
example builds. -/

theorem batch_order_preserved_witness :
    decodeAggregate (encodeAggregate daiCalls) = some daiCalls :=
  batch_order_preserved.1 daiCalls (by decide) (by decide)

/-- Claim C2: the sample balance with 18 decimals formats to exactly the
18-digit decimal string, matching the exact arbitrary-precision rendering
with no drift on this input. -/

theorem balance_format_exact :
    formatBalance 1234567890123456789 18 = "1.234567890123456789"
    ∧ formatBalance 1234567890123456789 18
        = exactText18 1234567890123456789 18 := by
  constructor <;> decide

/-- Claim C3 refutation, recorded as the code evaluated at failing inputs:
the quotient is computed by big.Float at finite binary precision, so the
division of 1 by 10 to the 18 yields a mantissa and exponent whose value
differs from the exact rational (the cross-multiplied equality fails), and
for balance 16000000000000000001 with 18 decimals the printed string
differs from the exact rendering in the last digit. -/

theorem division_in_binary_float :
    (bigFloatQuo (max (precOf 1) (precOf (10 ^ 18))) 1 (10 ^ 18)).2 = -123
    ∧ (bigFloatQuo (max (precOf 1) (precOf (10 ^ 18))) 1 (10 ^ 18)).1 * 10 ^ 18
        ≠ 2 ^ 123
    ∧ formatBalance 16000000000000000001 18 = "16.000000000000000002"
    ∧ exactText18 16000000000000000001 18 = "16.000000000000000001"
    ∧ formatBalance 16000000000000000001 18
        ≠ exactText18 16000000000000000001 18 := by
  refine ⟨by decide, by decide, by decide, by decide, by decide⟩

/-- Claim C4 counterexample: with decimals zero the program prints the
integer followed by a decimal point and 18 zero digits, not the bare
integer string. -/

theorem format_zero_decimals_counterexample :
    formatBalance 5 0 = "5.000000000000000000"
    ∧ natDecStr 5 = "5"
    ∧ formatBalance 5 0 ≠ natDecStr 5 := by
  refine ⟨by decide, by decide, by decide⟩

/-- Claim C4 as amended: with decimals zero the formatted output is the raw
integer rendered in decimal, followed by a decimal point and exactly 18
zero fractional digits. -/

theorem format_zero_decimals_amended (bal : Nat) :
    formatBalance bal 0
      = natDecStr bal ++ "." ++ String.mk (List.replicate 18 '0') :=
  formatBalance_zero_decimals bal

/-- Claim C5: with the RPC URL unset the run ends in the configuration
fatal exit, no dial is attempted, no connection is opened and nothing is
submitted to the transport. -/

theorem missing_config_no_network (w : World) (h : w.rpcUrl = "") :
    (mainRun w).outcome
        = .fatal "MAINNET_RPC_URL environment variable is required"
    ∧ (mainRun w).dialAttempted = false
    ∧ (mainRun w).connOpened = false
    ∧ (mainRun w).submitted = none := by
  simp [mainRun, h]

/-- Witness for C5 at a concrete world with the URL unset. -/

theorem missing_config_no_network_witness :
    (mainRun noUrlWorld).outcome
        = .fatal "MAINNET_RPC_URL environment variable is required"
    ∧ (mainRun noUrlWorld).dialAttempted = false
    ∧ (mainRun noUrlWorld).connOpened = false
    ∧ (mainRun noUrlWorld).submitted = none :=
  missing_config_no_network noUrlWorld rfl

/-- Claim C6: every error at every fallible pipeline step is fatal with the
failing step named in the message: the configuration check, the dial, the
remote aggregated call, the aggregate unpack, and each of the three
per-call unpacks (symbol, decimals, balance); and a run that does not
succeed prints none of the four output lines. In particular a failed
remote aggregated call terminates the run at that point with no output. -/

theorem errors_are_fatal (w : World) :
    ((mainRun w).outcome ≠ .success → (mainRun w).printed = [])
    ∧ (w.rpcUrl = "" → (mainRun w).outcome
        = .fatal "MAINNET_RPC_URL environment variable is required")
    ∧ (∀ e, w.rpcUrl ≠ "" → w.dial = Except.error e →
        (mainRun w).outcome
          = .fatal ("Failed to connect to the Ethereum client: " ++ e))
    ∧ (∀ e, w.rpcUrl ≠ "" → w.dial = Except.ok () →
        w.call multicallMsg = Except.error e →
        (mainRun w).outcome = .fatal ("Failed to execute multicall: " ++ e)
        ∧ (mainRun w).printed = [])
    ∧ (∀ raw, w.rpcUrl ≠ "" → w.dial = Except.ok () →
        w.call multicallMsg = Except.ok raw → decodeAggOutput raw = none →
        (mainRun w).outcome = .fatal "Failed to unpack multicall result"
        ∧ (mainRun w).printed = [])
    ∧ (∀ raw bn rd b0, w.rpcUrl ≠ "" → w.dial = Except.ok () →
        w.call multicallMsg = Except.ok raw →
        decodeAggOutput raw = some (bn, rd) → rd.get? 0 = some b0 →
        decodeString b0 = none →
        (mainRun w).outcome = .fatal "Failed to unpack symbol"
        ∧ (mainRun w).printed = [])
    ∧ (∀ raw bn rd b0 s b1, w.rpcUrl ≠ "" → w.dial = Except.ok () →
        w.call multicallMsg = Except.ok raw →
        decodeAggOutput raw = some (bn, rd) → rd.get? 0 = some b0 →
        decodeString b0 = some s → rd.get? 1 = some b1 →
        decodeUint8 b1 = none →
        (mainRun w).outcome = .fatal "Failed to unpack decimals"
        ∧ (mainRun w).printed = [])
    ∧ (∀ raw bn rd b0 s b1 d8 b2, w.rpcUrl ≠ "" → w.dial = Except.ok () →
        w.call multicallMsg = Except.ok raw →
        decodeAggOutput raw = some (bn, rd) → rd.get? 0 = some b0 →
        decodeString b0 = some s → rd.get? 1 = some b1 →
        decodeUint8 b1 = some d8 → rd.get? 2 = some b2 →
        decodeUint256 b2 = none →
        (mainRun w).outcome = .fatal "Failed to unpack balance"
        ∧ (mainRun w).printed = []) := by
  refine ⟨?_, ?_, ?_, ?_, ?_, ?_, ?_, ?_⟩
  · intro h
    rcases mainRun_cases w with h1 | h1
    · exact absurd h1 h
    · exact h1
  · intro h
    simp [mainRun, h]
  · intro e hu hd
    simp [mainRun, hu, hd]
  · intro e hu hd hc
    constructor <;> simp [mainRun, hu, hd, hc]
  · intro raw hu hd hc hdec
    constructor <;> simp [mainRun, hu, hd, hc, hdec]
  · intro raw bn rd b0 hu hd hc hdec h0 hs
    have h0g : rd[0]? = some b0 := by simpa using h0
    constructor <;> simp [mainRun, hu, hd, hc, hdec, h0g, hs]
  · intro raw bn rd b0 s b1 hu hd hc hdec h0 hs h1 h8
    have h0g : rd[0]? = some b0 := by simpa using h0
    have h1g : rd[1]? = some b1 := by simpa using h1
    constructor <;> simp [mainRun, hu, hd, hc, hdec, h0g, hs, h1g, h8]
  · intro raw bn rd b0 s b1 d8 b2 hu hd hc hdec h0 hs h1 h8 h2 h256
    have h0g : rd[0]? = some b0 := by simpa using h0
    have h1g : rd[1]? = some b1 := by simpa using h1
    have h2g : rd[2]? = some b2 := by simpa using h2
    constructor <;> simp [mainRun, hu, hd, hc, hdec, h0g, hs, h1g, h8, h2g, h256]

set_option maxRecDepth 100000 in
/-- Witness for C6: a run whose transport rejects the aggregated call ends
in the corresponding fatal outcome and prints nothing, and a run whose
response carries an undecodable symbol entry ends in the symbol unpack
fatal exit and prints nothing. -/

theorem errors_are_fatal_witness :
    ((mainRun connectOkCallFailWorld).outcome
        = .fatal ("Failed to execute multicall: " ++ "boom")
      ∧ (mainRun connectOkCallFailWorld).printed = [])
    ∧ ((mainRun shortResponseWorld).outcome
        = .fatal "Failed to unpack symbol"
      ∧ (mainRun shortResponseWorld).printed = []) :=
  ⟨(errors_are_fatal connectOkCallFailWorld).2.2.2.1 "boom"
      (by decide) rfl rfl,
   (errors_are_fatal shortResponseWorld).2.2.2.2.2.1
      (encodeAggOutput 7 [[]]) 7 [[]] [] (by decide) rfl rfl
      (by decide) rfl rfl⟩

/-- Claim C7 refutation, recorded as the code evaluated at the failing
input: when dialing succeeds and the remote call then fails, the run ends
through log.Fatalf, which exits the process without running the deferred
Close, so the opened connection is never released. -/

theorem conn_not_closed_on_fatal :
    (mainRun transportFailWorld).connOpened = true
    ∧ (mainRun transportFailWorld).connClosed = false
    ∧ (mainRun transportFailWorld).outcome
        = .fatal ("Failed to execute multicall: " ++ "transport down") := by
  refine ⟨by decide, by decide, by decide⟩

/-- Connection release happens only on a normal return or during a panic
unwind, never on a log.Fatalf exit. -/

theorem connClosed_only_success_or_panic (w : World)
    (h : (mainRun w).connClosed = true) :
    (mainRun w).outcome = .success ∨ (mainRun w).outcome = .panic := by
  revert h
  unfold mainRun
  (repeat' split) <;> simp

set_option maxRecDepth 100000 in
/-- Claim C8 counterexample: a decoded aggregate response whose return data
list has one entry, the empty byte string, makes the run terminate through
the error-logging exit of the symbol decode, not through a panic, although
the list has fewer than three entries. -/

theorem short_response_counterexample :
    decodeAggOutput (encodeAggOutput 7 [[]]) = some (7, [[]])
    ∧ ([([] : List Nat)]).length < 3
    ∧ (mainRun shortResponseWorld).outcome = .fatal "Failed to unpack symbol"
    ∧ (mainRun shortResponseWorld).outcome ≠ .panic := by
  refine ⟨by decide, by decide, by decide, by decide⟩

/-- Claim C8 as amended: the three indexed accesses are unguarded, so a
decoded return data list of length at least 3 never panics, an empty list
always panics, a list shorter than 3 panics whenever the decodes that are
reached succeed, and otherwise a short list ends either in the panic or in
the fatal exit of the symbol or decimals decode. -/

theorem unguarded_indexing_amended (w : World) (raw : List Nat) (bn : Nat)
    (rd : List (List Nat)) (hu : w.rpcUrl ≠ "")
    (hd : w.dial = Except.ok ()) (hc : w.call multicallMsg = Except.ok raw)
    (hdec : decodeAggOutput raw = some (bn, rd)) :
    (3 ≤ rd.length → (mainRun w).outcome ≠ .panic)
    ∧ (rd.length = 0 → (mainRun w).outcome = .panic)
    ∧ (rd.length < 3 →
        (∀ b, rd.get? 0 = some b → decodeString b ≠ none) →
        (∀ b, rd.get? 1 = some b → decodeUint8 b ≠ none) →
        (mainRun w).outcome = .panic)
    ∧ (rd.length < 3 →
        (mainRun w).outcome = .panic
        ∨ (mainRun w).outcome = .fatal "Failed to unpack symbol"
        ∨ (mainRun w).outcome = .fatal "Failed to unpack decimals") := by
  refine ⟨?_, ?_, ?_, ?_⟩
  · intro h3
    rcases rd with _ | ⟨b0, _ | ⟨b1, _ | ⟨b2, rest⟩⟩⟩
    · simp at h3
    · simp at h3
    · simp at h3
    · cases hs : decodeString b0 <;> cases h8 : decodeUint8 b1 <;>
        cases h256 : decodeUint256 b2 <;>
        simp [mainRun, hu, hd, hc, hdec, hs, h8, h256]
  · intro h0
    have : rd = [] := List.length_eq_zero.mp h0
    subst this
    simp [mainRun, hu, hd, hc, hdec]
  · intro h3 hd0 hd1
    rcases rd with _ | ⟨b0, _ | ⟨b1, _ | ⟨b2, rest⟩⟩⟩
    · simp [mainRun, hu, hd, hc, hdec]
    · obtain ⟨s, hs⟩ : ∃ s, decodeString b0 = some s := by
        cases h : decodeString b0
        · exact absurd h (hd0 b0 rfl)
        · exact ⟨_, rfl⟩
      simp [mainRun, hu, hd, hc, hdec, hs]
    · obtain ⟨s, hs⟩ : ∃ s, decodeString b0 = some s := by
        cases h : decodeString b0
        · exact absurd h (hd0 b0 rfl)
        · exact ⟨_, rfl⟩
      obtain ⟨v, h8⟩ : ∃ v, decodeUint8 b1 = some v := by
        cases h : decodeUint8 b1
        · exact absurd h (hd1 b1 rfl)
        · exact ⟨_, rfl⟩
      simp [mainRun, hu, hd, hc, hdec, hs, h8]
    · simp only [List.length_cons] at h3
      omega
  · intro h3
    rcases rd with _ | ⟨b0, _ | ⟨b1, _ | ⟨b2, rest⟩⟩⟩
    · left
      simp [mainRun, hu, hd, hc, hdec]
    · cases hs : decodeString b0
      · right; left
        simp [mainRun, hu, hd, hc, hdec, hs]
      · left
        simp [mainRun, hu, hd, hc, hdec, hs]
    · cases hs : decodeString b0
      · right; left
        simp [mainRun, hu, hd, hc, hdec, hs]
      · cases h8 : decodeUint8 b1
        · right; right
          simp [mainRun, hu, hd, hc, hdec, hs, h8]
        · left
          simp [mainRun, hu, hd, hc, hdec, hs, h8]
    · simp only [List.length_cons] at h3
      omega

set_option maxRecDepth 100000 in
/-- Witness for C8: a run whose response decodes to an empty return data
list panics at the first indexed access. -/

theorem unguarded_indexing_witness :
    (mainRun emptyResponseWorld).outcome = .panic :=
  (unguarded_indexing_amended emptyResponseWorld (encodeAggOutput 7 []) 7 []
    (by decide) rfl rfl (by decide)).2.1 rfl

/-- Claim C9: whatever the balance and the decimals value, the printed
balance string is an integer part with no decimal point in it, one decimal
point, and exactly 18 fractional digit characters, because Text is called
with 18 digits regardless of the decimals value. -/

theorem printed_balance_has_18_digits (bal dec : Nat) :
    ∃ ip fp, formatBalance bal dec = ip ++ "." ++ fp
      ∧ fp.length = 18
      ∧ (∀ c ∈ fp.data, c ≠ '.')
      ∧ (∀ c ∈ ip.data, c ≠ '.') := by
  refine ⟨natDecStr
      ((text18N (bigFloatQuo (max (precOf bal) (precOf (10 ^ dec))) bal
        (10 ^ dec)).1 (bigFloatQuo (max (precOf bal) (precOf (10 ^ dec))) bal
        (10 ^ dec)).2) / 10 ^ 18),
    padLeftZeros 18 (natDecStr
      ((text18N (bigFloatQuo (max (precOf bal) (precOf (10 ^ dec))) bal
        (10 ^ dec)).1 (bigFloatQuo (max (precOf bal) (precOf (10 ^ dec))) bal
        (10 ^ dec)).2) % 10 ^ 18)),
    rfl, ?_, ?_, ?_⟩
  · apply padLeftZeros_length
    apply natDecStr_length_le _ 18 _ (by norm_num)
    exact Nat.mod_lt _ (by positivity)
  · exact padLeftZeros_no_dot _ (natDecStr_no_dot _)
  · exact natDecStr_no_dot _

/-- Claim C10: every successful run submitted exactly one message, carrying
the aggregate encoding of the three-call batch, symbol then decimals then
balanceOf, all against the DAI contract, addressed to the Multicall3
contract with no value transfer and a nil block argument. -/

theorem fixed_batch_submitted (w : World)
    (h : (mainRun w).outcome = .success) :
    (mainRun w).submitted
        = some (⟨multicall3Address, encodeAggregate daiCalls, none⟩, none)
    ∧ daiCalls = [⟨daiAddress, symbolCallData⟩,
        ⟨daiAddress, decimalsCallData⟩,
        ⟨daiAddress, balanceOfCallData⟩] := by
  refine ⟨?_, rfl⟩
  revert h
  unfold mainRun
  (repeat' split) <;> simp [multicallMsg]

set_option maxRecDepth 100000 in
/-- Witness for C10: the successful concrete run submits the fixed batch. -/

theorem fixed_batch_submitted_witness :
    (mainRun okWorld).submitted
        = some (⟨multicall3Address, encodeAggregate daiCalls, none⟩, none)
    ∧ daiCalls = [⟨daiAddress, symbolCallData⟩,
        ⟨daiAddress, decimalsCallData⟩,
        ⟨daiAddress, balanceOfCallData⟩] :=
  fixed_batch_submitted okWorld (by decide)

end Multicall3
